import Mathlib

/-!
Shallow embedding of the generator core of
`src/generator_core/teletext_generator.py` (Ravenfoot password generator).

Randomness is modelled as an infinite stream of natural numbers
(`Rng := Nat → Nat`); each primitive of Python's `random` module consumes
draws from the head of the stream:
  * `random.choice(seq)`  — one draw, index `draw % len seq`; raises
    (here: `none`) on an empty sequence;
  * `random.randrange(n)` — one draw, value `draw % n`; raises (`none`)
    when `n = 0`;
  * `random.random() < 0.5` — one draw, its parity as the coin;
  * `random.shuffle(xs)`  — Fisher–Yates from the top index down, one draw
    per swap position.
Fallible computations return `Option (result × remaining stream)`.
The module-level vocabulary globals (`WORD_LISTS`, `SPECIALS`, `NUMBERS`)
become an explicit `Vocab` record parameter.
-/

def Rng : Type := Nat → Nat

/-- Drop the first draw of the stream. -/
def rtail (g : Rng) : Rng := fun n => g (n + 1)

/-- `random.choice(l)`: uniform element of `l`; raises on an empty list. -/
def choice {α : Type} (l : List α) (g : Rng) : Option (α × Rng) :=
  if h : 0 < l.length then
    some (l.get ⟨g 0 % l.length, Nat.mod_lt _ h⟩, rtail g)
  else none

/-- `random.randrange(n)`: uniform value below `n`; raises when `n = 0`. -/
def randrange (n : Nat) (g : Rng) : Option (Nat × Rng) :=
  if n = 0 then none else some (g 0 % n, rtail g)

/-- `random.random() < 0.5`: a fair coin, one draw. -/
def coin (g : Rng) : Bool × Rng := (g 0 % 2 == 0, rtail g)

/-- One pass of `random.shuffle` (Fisher–Yates): positions `i, i-1, …, 1`,
at each position `p` a draw `j < p + 1` and a swap of slots `p` and `j`. -/
def shuffleFrom {α : Type} [Inhabited α] : List α → Nat → Rng → List α × Rng
  | l, 0, g => (l, g)
  | l, i + 1, g =>
      let j := g 0 % (i + 2)
      let l2 := (l.set (i + 1) (l.getD j default)).set j (l.getD (i + 1) default)
      shuffleFrom l2 i (rtail g)

/-- `random.shuffle(l)`. -/
def shuffle {α : Type} [Inhabited α] (l : List α) (g : Rng) : List α × Rng :=
  shuffleFrom l (l.length - 1) g

/-- `[random.choice(l) for _ in range(k)]`: `k` independent draws from `l`. -/
def choiceRep {α : Type} (l : List α) : Nat → Rng → Option (List α × Rng)
  | 0, g => some ([], g)
  | k + 1, g =>
      (choice l g).bind fun p =>
      (choiceRep l k p.2).bind fun q =>
      some (p.1 :: q.1, q.2)

/-- The module-level vocabulary state: `WORD_LISTS`, `SPECIALS`, `NUMBERS`. -/
structure Vocab where
  wordLists : List (List String)
  specials : List String
  numbers : List String
deriving DecidableEq

/-- Fill loop of `pick_words_dynamic`:
`while len(selected) < n_words: li = choice(WORD_LISTS); selected.append(choice(li))`,
with the remaining iteration count made explicit. -/
def fillWords (V : Vocab) : Nat → List String → Rng → Option (List String × Rng)
  | 0, acc, g => some (acc, g)
  | k + 1, acc, g =>
      (choice V.wordLists g).bind fun p =>
      (choice p.1 p.2).bind fun q =>
      fillWords V k (acc ++ [q.1]) q.2

/-- `pick_words_dynamic(n_words)` (lines 133–171 of the source), with the
global `WORD_LISTS` passed explicitly as `V.wordLists`. -/
def pick_words_dynamic (V : Vocab) (n_words : Int) (g : Rng) :
    Option (List String × Rng) :=
  if n_words ≤ 0 then some ([], g)
  else if V.wordLists.length = 1 ∨ n_words = 1 then
    choiceRep (V.wordLists.getD 0 []) n_words.toNat g
  else
    let p := shuffle (List.range V.wordLists.length) g
    let idxA := p.1.getD 0 0
    let idxB := p.1.getD 1 0
    (choice (V.wordLists.getD idxA []) p.2).bind fun a =>
    (choice (V.wordLists.getD idxB []) a.2).bind fun b =>
    (fillWords V (n_words.toNat - 2) [a.1, b.1] b.2).bind fun s =>
    some (shuffle s.1 s.2)

/-- One decorated word: `{"pre": …, "word": …, "post": …}`. -/
structure Decorated where
  pre : String
  word : String
  post : String
deriving DecidableEq

instance : Inhabited Decorated := ⟨⟨"", "", ""⟩⟩

/-- Render a decorated word: `f"{d['pre']}{d['word']}{d['post']}"`. -/
def Decorated.render (d : Decorated) : String := d.pre ++ d.word ++ d.post

/-- The token loop of `distribute_tokens` (lines 194–199): for each token,
`idx = randrange(len(decorated))` — which raises when there are no words —
then a coin decides prefix vs suffix, and the token is appended there. -/
def placeTokens : List Decorated → List String → Rng → Option (List Decorated × Rng)
  | ds, [], g => some (ds, g)
  | ds, t :: ts, g =>
      (randrange ds.length g).bind fun p =>
      let c := coin p.2
      let d := ds.getD p.1 default
      let d2 := if c.1 then { d with pre := d.pre ++ t }
                else { d with post := d.post ++ t }
      placeTokens (ds.set p.1 d2) ts c.2

/-- `distribute_tokens(words, tokens)` (lines 174–200). -/
def distribute_tokens (words tokens : List String) (g : Rng) :
    Option (List String × Rng) :=
  (placeTokens (words.map fun w => { pre := "", word := w, post := "" }) tokens g).map
    fun p => (p.1.map Decorated.render, p.2)

/-- The random part of `generate_password` (lines 227–234): pick words, draw
`max(0, n_specials)` specials and `max(0, n_numbers)` numbers, shuffle the
token pool, distribute tokens and join. -/
def genPassword (V : Vocab) (n_words n_specials n_numbers : Int) (g : Rng) :
    Option (String × Rng) :=
  (pick_words_dynamic V n_words g).bind fun w =>
  (choiceRep V.specials n_specials.toNat w.2).bind fun sp =>
  (choiceRep V.numbers n_numbers.toNat sp.2).bind fun nu =>
  let tp := shuffle (sp.1 ++ nu.1) nu.2
  (distribute_tokens w.1 tp.1 tp.2).bind fun parts =>
  some (String.join parts.1, parts.2)

/-- The entropy formula of `generate_password` (lines 236–244), verbatim:
`len(tokens)` is `max(0, n_specials) + max(0, n_numbers)`, i.e.
`n_specials.toNat + n_numbers.toNat`, and the word/specials/numbers terms
multiply the raw (unclamped) counts. -/
noncomputable def estimateEntropy (V : Vocab) (n_words n_specials n_numbers : Int) : ℝ :=
  (n_words : ℝ) * Real.logb 2 (max 2
      (((V.wordLists.map List.length).sum : ℝ) / ((max 1 V.wordLists.length : ℕ) : ℝ)))
  + (n_specials : ℝ) *
      (if V.specials.length = 0 then 0 else Real.logb 2 (V.specials.length : ℝ))
  + (n_numbers : ℝ) *
      (if V.numbers.length = 0 then 0 else Real.logb 2 (V.numbers.length : ℝ))
  + ((n_specials.toNat + n_numbers.toNat : ℕ) : ℝ) *
      Real.logb 2 ((2 : ℝ) * ((max 1 n_words : Int) : ℝ))

/-- `generate_password(n_words, n_specials, n_numbers)` (lines 203–245):
the password string from the random draws, paired with the draw-independent
entropy estimate. `none` models a raised exception. -/
noncomputable def generate_password (V : Vocab) (n_words n_specials n_numbers : Int)
    (g : Rng) : Option ((String × ℝ) × Rng) :=
  (genPassword V n_words n_specials n_numbers g).map
    fun p => ((p.1, estimateEntropy V n_words n_specials n_numbers), p.2)

/-- The entropy formula exactly as the specification states it (§4.3 /
claim wording): average vocabulary size divides by the number of word
lists, and every multiplier is the (non-negative) request count itself. -/
noncomputable def entropySpec (V : Vocab) (nw ns nn : ℕ) : ℝ :=
  (nw : ℝ) * Real.logb 2 (max 2
      (((V.wordLists.map List.length).sum : ℝ) / (V.wordLists.length : ℝ)))
  + (ns : ℝ) *
      (if V.specials.length = 0 then 0 else Real.logb 2 (V.specials.length : ℝ))
  + (nn : ℝ) *
      (if V.numbers.length = 0 then 0 else Real.logb 2 (V.numbers.length : ℝ))
  + ((ns + nn : ℕ) : ℝ) * Real.logb 2 ((2 : ℝ) * ((max 1 nw : ℕ) : ℝ))

/-- A concrete vocabulary with a single word list (spec §8 scenario). -/
def V1 : Vocab := ⟨[["apple", "berry"]], ["!", "@"], ["1", "2"]⟩

/-- A concrete vocabulary with two word lists. -/
def V2 : Vocab := ⟨[["a", "b"], ["c", "d"]], ["!"], ["1"]⟩

/-- A concrete random stream. -/
def g0 : Rng := fun _ => 0

/-- Another concrete random stream, differing from `g0`. -/
def gB : Rng := fun _ => 1

/-! ### Basic lemmas on the random primitives -/

theorem choice_mem {α : Type} {l : List α} {g : Rng} {a : α} {g' : Rng}
    (h : choice l g = some (a, g')) : a ∈ l := by
  unfold choice at h
  split at h
  · cases h
    exact List.get_mem _ _ _
  · cases h

theorem choice_of_ne_nil {α : Type} {l : List α} (g : Rng) (h : l ≠ []) :
    ∃ a g', choice l g = some (a, g') ∧ a ∈ l := by
  have hl : 0 < l.length := List.length_pos.mpr h
  refine ⟨l.get ⟨g 0 % l.length, Nat.mod_lt _ hl⟩, rtail g, ?_, List.get_mem _ _ _⟩
  unfold choice
  simp [hl]

theorem randrange_lt {n : Nat} {g : Rng} {i : Nat} {g' : Rng}
    (h : randrange n g = some (i, g')) : i < n := by
  unfold randrange at h
  split at h
  · exact absurd h (by simp)
  · cases h
    exact Nat.mod_lt _ (Nat.pos_of_ne_zero (by assumption))

theorem choiceRep_mem {α : Type} {l : List α} :
    ∀ {k : Nat} {g : Rng} {ws : List α} {g' : Rng},
      choiceRep l k g = some (ws, g') → ws.length = k ∧ ∀ w ∈ ws, w ∈ l := by
  intro k
  induction k with
  | zero =>
    intro g ws g' h
    simp only [choiceRep] at h
    cases h
    simp
  | succ k ih =>
    intro g ws g' h
    simp only [choiceRep, Option.bind_eq_bind, Option.bind_eq_some] at h
    obtain ⟨p, hp, q, hq, hcons⟩ := h
    obtain ⟨hlen, hmem⟩ := ih hq
    cases hcons
    refine ⟨by simp [hlen], ?_⟩
    intro w hw
    rcases List.mem_cons.mp hw with rfl | hw
    · exact choice_mem hp
    · exact hmem w hw

theorem choiceRep_of_ne_nil {α : Type} {l : List α} (h : l ≠ []) :
    ∀ (k : Nat) (g : Rng),
      ∃ ws g', choiceRep l k g = some (ws, g') ∧ ws.length = k ∧ ∀ w ∈ ws, w ∈ l := by
  intro k
  induction k with
  | zero => intro g; exact ⟨[], g, rfl, rfl, by simp⟩
  | succ k ih =>
    intro g
    obtain ⟨a, g1, ha, hamem⟩ := choice_of_ne_nil g h
    obtain ⟨ws, g2, hws, hlen, hmem⟩ := ih g1
    refine ⟨a :: ws, g2, ?_, by simp [hlen], ?_⟩
    · simp only [choiceRep, Option.bind_eq_bind, ha, Option.some_bind, hws]
    · intro w hw
      rcases List.mem_cons.mp hw with rfl | hw
      · exact hamem
      · exact hmem w hw

theorem shuffleFrom_length {α : Type} [Inhabited α] :
    ∀ (i : Nat) (l : List α) (g : Rng), (shuffleFrom l i g).1.length = l.length := by
  intro i
  induction i with
  | zero => intro l g; rfl
  | succ i ih =>
    intro l g
    simp only [shuffleFrom]
    rw [ih]
    simp

theorem shuffleFrom_subset {α : Type} [Inhabited α] :
    ∀ (i : Nat) (l : List α) (g : Rng) (x : α), i < l.length →
      x ∈ (shuffleFrom l i g).1 → x ∈ l := by
  intro i
  induction i with
  | zero => intro l g x _ hx; exact hx
  | succ i ih =>
    intro l g x hi hx
    simp only [shuffleFrom] at hx
    set j := g 0 % (i + 2) with hj
    have hjlt : j < l.length := by
      have : j < i + 2 := Nat.mod_lt _ (by omega)
      omega
    have hi1 : i + 1 < l.length := hi
    have hrec : i < ((l.set (i + 1) (l.getD j default)).set j (l.getD (i + 1) default)).length := by
      simp [List.length_set]; omega
    have hx2 := ih _ _ x hrec hx
    rcases List.mem_or_eq_of_mem_set hx2 with hx3 | rfl
    · rcases List.mem_or_eq_of_mem_set hx3 with hx4 | rfl
      · exact hx4
      · rw [List.getD_eq_getElem _ _ hjlt]
        exact List.getElem_mem _
    · rw [List.getD_eq_getElem _ _ hi1]
      exact List.getElem_mem _

theorem shuffle_length {α : Type} [Inhabited α] (l : List α) (g : Rng) :
    (shuffle l g).1.length = l.length :=
  shuffleFrom_length _ l g

theorem shuffle_subset {α : Type} [Inhabited α] {l : List α} {g : Rng} {x : α}
    (hx : x ∈ (shuffle l g).1) : x ∈ l := by
  unfold shuffle at hx
  cases hl : l.length with
  | zero => rw [hl] at hx; exact hx
  | succ n =>
    rw [hl] at hx
    exact shuffleFrom_subset n l g x (by omega) hx

/-! ### Lemmas on list updates and token placement -/

theorem set_getD_self {α : Type} : ∀ (l : List α) (i : Nat) (d : α),
    l.set i (l.getD i d) = l := by
  intro l
  induction l with
  | nil => intro i d; rfl
  | cons a t ih =>
    intro i d
    cases i with
    | zero => rfl
    | succ i => simpa using ih i d

theorem getD_map {α β : Type} (f : α → β) (l : List α) (i : Nat) (d : α) :
    (l.map f).getD i (f d) = f (l.getD i d) := by
  rcases Nat.lt_or_ge i l.length with h | h
  · rw [List.getD_eq_getElem _ _ (by simpa using h), List.getD_eq_getElem _ _ h,
      List.getElem_map]
  · rw [List.getD_eq_default _ _ (by simpa using h), List.getD_eq_default _ _ h]

theorem getD_mem_of_lt {α : Type} {l : List α} {i : Nat} (d : α) (h : i < l.length) :
    l.getD i d ∈ l := by
  rw [List.getD_eq_getElem _ _ h]
  exact List.getElem_mem _

theorem map_word_set (ds : List Decorated) (i : Nat) (d2 : Decorated)
    (h : d2.word = (ds.getD i default).word) :
    (ds.set i d2).map Decorated.word = ds.map Decorated.word := by
  rw [List.map_set, h, ← getD_map Decorated.word ds i default, set_getD_self]

/-- Token placement never changes the underlying word sequence. -/
theorem placeTokens_words :
    ∀ (ts : List String) (ds : List Decorated) (g : Rng) (es : List Decorated) (g' : Rng),
      placeTokens ds ts g = some (es, g') → es.map Decorated.word = ds.map Decorated.word := by
  intro ts
  induction ts with
  | nil =>
    intro ds g es g' h
    cases h
    rfl
  | cons t ts ih =>
    intro ds g es g' h
    simp only [placeTokens, Option.bind_eq_bind, Option.bind_eq_some] at h
    obtain ⟨p, hp, hrec⟩ := h
    rw [ih _ _ _ _ hrec]
    exact map_word_set _ _ _ (by split <;> rfl)

theorem placeTokens_length {ts : List String} {ds : List Decorated} {g : Rng}
    {es : List Decorated} {g' : Rng} (h : placeTokens ds ts g = some (es, g')) :
    es.length = ds.length := by
  have h2 := congrArg List.length (placeTokens_words ts ds g es g' h)
  simpa using h2

/-! ### Lemmas on word selection -/

theorem fillWords_mem {V : Vocab} :
    ∀ (k : Nat) (acc : List String) (g : Rng) (sel : List String) (g' : Rng),
      fillWords V k acc g = some (sel, g') →
      sel.length = acc.length + k ∧ ∀ w ∈ sel, w ∈ acc ∨ ∃ l ∈ V.wordLists, w ∈ l := by
  intro k
  induction k with
  | zero =>
    intro acc g sel g' h
    cases h
    exact ⟨by simp, fun w hw => Or.inl hw⟩
  | succ k ih =>
    intro acc g sel g' h
    simp only [fillWords, Option.bind_eq_bind, Option.bind_eq_some] at h
    obtain ⟨p, hp, q, hq, hrec⟩ := h
    obtain ⟨hlen, hmem⟩ := ih _ _ _ _ hrec
    constructor
    · simp only [List.length_append, List.length_cons, List.length_nil] at hlen
      omega
    · intro w hw
      rcases hmem w hw with hacc | hl
      · rcases List.mem_append.mp hacc with h1 | h1
        · exact Or.inl h1
        · have hwq : w = q.1 := by simpa using h1
          exact Or.inr ⟨p.1, choice_mem hp, hwq ▸ choice_mem hq⟩
      · exact Or.inr hl

theorem fillWords_of_wf {V : Vocab} (hV : V.wordLists ≠ [])
    (hl : ∀ l ∈ V.wordLists, l ≠ []) :
    ∀ (k : Nat) (acc : List String) (g : Rng),
      ∃ sel g', fillWords V k acc g = some (sel, g') ∧ sel.length = acc.length + k := by
  intro k
  induction k with
  | zero => intro acc g; exact ⟨acc, g, rfl, by simp⟩
  | succ k ih =>
    intro acc g
    obtain ⟨li, g1, hli, hlimem⟩ := choice_of_ne_nil g hV
    obtain ⟨w, g2, hw, _⟩ := choice_of_ne_nil g1 (hl li hlimem)
    obtain ⟨sel, g', hsel, hlen⟩ := ih (acc ++ [w]) g2
    refine ⟨sel, g', ?_, ?_⟩
    · simp only [fillWords, Option.bind_eq_bind, hli, Option.some_bind, hw, hsel]
    · simp only [List.length_append, List.length_cons, List.length_nil] at hlen
      omega

/-! ### Claim theorems -/

/-- C7: for every word sequence, `distribute_tokens(words, [])` returns the
words unchanged, so their concatenation equals the concatenation of the
input words with no prefixes or suffixes added. -/
theorem c7_empty_tokens_identity (words : List String) (g : Rng) :
    distribute_tokens words [] g = some (words, g) := by
  have : (words.map fun w => ({ pre := "", word := w, post := "" } : Decorated)).map
      Decorated.render = words := by
    rw [List.map_map]
    have hc : Decorated.render ∘ (fun w => ({ pre := "", word := w, post := "" } : Decorated))
        = fun w => w := by
      funext w
      simp [Decorated.render]
    rw [hc, List.map_id']
  simp only [distribute_tokens, placeTokens, Option.map, this]

/-- C5: `generate_password(0, 0, 0)` returns the empty password and exactly
zero entropy bits as a valid non-error result. -/
theorem c5_all_zero_request (V : Vocab) (g : Rng) :
    generate_password V 0 0 0 g = some (("", 0), g) := by
  have h1 : genPassword V 0 0 0 g = some ("", g) := rfl
  have h2 : estimateEntropy V 0 0 0 = 0 := by
    simp [estimateEntropy]
  unfold generate_password
  simp only [h1, h2]
  rfl

/-- C1 (code bug): with `wordCount = 0` and a positive token count the code
does not return a pair — `random.randrange(0)` inside `distribute_tokens`
raises `ValueError` (modelled as `none`), for every random stream. -/
theorem c1_zero_words_with_tokens_raises (g : Rng) :
    generate_password V1 0 1 0 g = none := rfl

theorem pick_clamp (V : Vocab) (n : Int) (g : Rng) :
    pick_words_dynamic V n g = pick_words_dynamic V (max 0 n) g := by
  rcases le_or_lt n 0 with h | h
  · unfold pick_words_dynamic
    rw [if_pos h, if_pos (by omega : (max 0 n : Int) ≤ 0)]
  · rw [max_eq_right (by omega : (0 : Int) ≤ n)]

theorem genPassword_clamp (V : Vocab) (nw ns nn : Int) (g : Rng) :
    genPassword V nw ns nn g = genPassword V (max 0 nw) (max 0 ns) (max 0 nn) g := by
  unfold genPassword
  rw [pick_clamp V nw g, (by omega : (max 0 ns).toNat = ns.toNat),
    (by omega : (max 0 nn).toNat = nn.toNat)]

/-- C2 (amended): negative counts are clamped to zero for the password
construction — words, token pool, and placement — but the returned
`entropyBits` is the formula at the RAW counts (`estimateEntropy`), whose
word/specials/numbers terms multiply the unclamped, possibly negative,
counts; it is therefore not always non-negative. -/
theorem c2_amended_negative_counts (V : Vocab) (nw ns nn : Int) (g : Rng) :
    generate_password V nw ns nn g =
      (genPassword V (max 0 nw) (max 0 ns) (max 0 nn) g).map
        (fun p => ((p.1, estimateEntropy V nw ns nn), p.2)) := by
  unfold generate_password
  rw [genPassword_clamp]

/-- C2 (counterexample): at the request `(-1, 0, 0)` with one two-word list,
`generate_password` returns entropy `-1`, which is negative and differs from
the estimate at the clamped counts `(0, 0, 0)`, namely `0`. -/
theorem c2_counterexample :
    generate_password V1 (-1) 0 0 g0 = some (("", estimateEntropy V1 (-1) 0 0), g0) ∧
    estimateEntropy V1 (-1) 0 0 = -1 ∧
    ¬ (0 : ℝ) ≤ estimateEntropy V1 (-1) 0 0 ∧
    estimateEntropy V1 0 0 0 = 0 := by
  have h2 : Real.logb 2 2 = 1 := Real.logb_self_eq_one one_lt_two
  have hval : estimateEntropy V1 (-1) 0 0 = -1 := by
    unfold estimateEntropy V1
    norm_num [h2]
  refine ⟨rfl, hval, ?_, ?_⟩
  · rw [hval]
    norm_num
  · simp [estimateEntropy]

/-- C6: token placement preserves the word spine — for any outcome of the
random draws, the decorated sequence produced by `distribute_tokens` carries
the input words unchanged and in order, so deleting the token characters
(the accumulated pre/post strings) from the concatenated output yields
exactly the concatenation of the input words. -/
theorem c6_roundtrip (words tokens : List String) (g : Rng)
    (ds : List Decorated) (g' : Rng)
    (h : placeTokens (words.map fun w => { pre := "", word := w, post := "" }) tokens g
        = some (ds, g')) :
    ds.map Decorated.word = words ∧
    String.join (ds.map Decorated.word) = String.join words ∧
    distribute_tokens words tokens g = some (ds.map Decorated.render, g') := by
  have hw := placeTokens_words tokens _ g ds g' h
  have hw2 : ds.map Decorated.word = words := by
    rw [hw, List.map_map]
    have hc : Decorated.word ∘ (fun w => ({ pre := "", word := w, post := "" } : Decorated))
        = fun w => w := rfl
    rw [hc, List.map_id']
  refine ⟨hw2, by rw [hw2], ?_⟩
  simp only [distribute_tokens, h, Option.map]

/-- Witness for C6 at a concrete input: two words, one token. -/
theorem c6_roundtrip_witness :
    ([⟨"!", "ab", ""⟩, ⟨"", "cd", ""⟩] : List Decorated).map Decorated.word = ["ab", "cd"] ∧
    String.join (([⟨"!", "ab", ""⟩, ⟨"", "cd", ""⟩] : List Decorated).map Decorated.word)
      = String.join ["ab", "cd"] ∧
    distribute_tokens ["ab", "cd"] ["!"] g0
      = some ((([⟨"!", "ab", ""⟩, ⟨"", "cd", ""⟩] : List Decorated).map Decorated.render),
          rtail (rtail g0)) :=
  c6_roundtrip ["ab", "cd"] ["!"] g0 [⟨"!", "ab", ""⟩, ⟨"", "cd", ""⟩] (rtail (rtail g0)) rfl

/-- C9: the entropy component of `generate_password` is independent of the
random draws — two successful runs at the same request and vocabulary return
the same `entropyBits` whatever their random streams produced. -/
theorem c9_entropy_deterministic (V : Vocab) (nw ns nn : Int) (gA gC : Rng)
    (r1 r2 : (String × ℝ) × Rng)
    (h1 : generate_password V nw ns nn gA = some r1)
    (h2 : generate_password V nw ns nn gC = some r2) :
    r1.1.2 = r2.1.2 := by
  unfold generate_password at h1 h2
  rcases Option.map_eq_some'.mp h1 with ⟨p1, _, hp1⟩
  rcases Option.map_eq_some'.mp h2 with ⟨p2, _, hp2⟩
  rw [← hp1, ← hp2]

/-- Witness for C9: two concrete runs with different streams. -/
theorem c9_entropy_deterministic_witness :
    ∃ r1 r2, generate_password V1 2 1 1 g0 = some r1 ∧
      generate_password V1 2 1 1 gB = some r2 ∧ r1.1.2 = r2.1.2 :=
  ⟨_, _, rfl, rfl, c9_entropy_deterministic V1 2 1 1 g0 gB _ _ rfl rfl⟩

/-- C3: on a collection with at least one word list, the entropy component
returned by `generate_password` at a non-negative request is exactly the
four-term specification formula `entropySpec` (word, specials, numbers and
placement terms). -/
theorem c3_entropy_formula (V : Vocab) (nw ns nn : ℕ) (g : Rng)
    (hV : V.wordLists ≠ []) :
    generate_password V nw ns nn g =
      (genPassword V nw ns nn g).map (fun p => ((p.1, entropySpec V nw ns nn), p.2)) := by
  have he : estimateEntropy V nw ns nn = entropySpec V nw ns nn := by
    unfold estimateEntropy entropySpec
    have hlen : max 1 V.wordLists.length = V.wordLists.length := by
      have := List.length_pos.mpr hV
      omega
    rw [hlen]
    push_cast [Int.toNat_natCast]
    ring_nf
  unfold generate_password
  simp only [he]

/-- Witness for C3 at the concrete spec §8 scenario. -/
theorem c3_entropy_formula_witness :
    generate_password V1 2 1 1 g0 =
      (genPassword V1 2 1 1 g0).map (fun p => ((p.1, entropySpec V1 2 1 1), p.2)) :=
  c3_entropy_formula V1 2 1 1 g0 (by decide)

/-- C8: with the vocabulary fixed, the entropy estimate is monotonically
non-decreasing in each of wordCount, specialCount and numberCount separately
over the non-negative integers. -/
theorem c8_entropy_monotone (V : Vocab) (k s n a b : ℕ) (hab : a ≤ b) :
    estimateEntropy V a s n ≤ estimateEntropy V b s n ∧
    estimateEntropy V k a n ≤ estimateEntropy V k b n ∧
    estimateEntropy V k s a ≤ estimateEntropy V k s b := by
  have hb2 : (1 : ℝ) < 2 := one_lt_two
  have hword : 0 ≤ Real.logb 2 (max 2
      (((V.wordLists.map List.length).sum : ℝ) / ((max 1 V.wordLists.length : ℕ) : ℝ))) :=
    Real.logb_nonneg hb2 (le_trans one_le_two (le_max_left _ _))
  have hif : ∀ (m : ℕ), 0 ≤ (if m = 0 then (0 : ℝ) else Real.logb 2 (m : ℝ)) := by
    intro m
    split
    · exact le_refl 0
    · exact Real.logb_nonneg hb2
        (by exact_mod_cast Nat.one_le_iff_ne_zero.mpr (by assumption))
  have hmax1 : ∀ (w : Int), (1 : ℝ) ≤ ((max 1 w : Int) : ℝ) := by
    intro w
    exact_mod_cast le_max_left 1 w
  have hplace_pos : ∀ (w : Int), (0 : ℝ) < 2 * ((max 1 w : Int) : ℝ) := by
    intro w
    nlinarith [hmax1 w]
  have hplace_nonneg : ∀ (w : Int), 0 ≤ Real.logb 2 ((2 : ℝ) * ((max 1 w : Int) : ℝ)) := by
    intro w
    exact Real.logb_nonneg hb2 (by nlinarith [hmax1 w])
  have hplace_mono : ∀ (w1 w2 : Int), w1 ≤ w2 →
      Real.logb 2 ((2 : ℝ) * ((max 1 w1 : Int) : ℝ))
        ≤ Real.logb 2 ((2 : ℝ) * ((max 1 w2 : Int) : ℝ)) := by
    intro w1 w2 h
    apply Real.logb_le_logb_of_le hb2 (hplace_pos w1)
    have hmm : ((max 1 w1 : Int) : ℝ) ≤ ((max 1 w2 : Int) : ℝ) := by
      exact_mod_cast max_le_max (le_refl (1 : Int)) h
    nlinarith
  have hc : ((a : Int) : ℝ) ≤ ((b : Int) : ℝ) := by exact_mod_cast hab
  refine ⟨?_, ?_, ?_⟩
  · unfold estimateEntropy
    have h4 : Real.logb 2 ((2 : ℝ) * ((max 1 (a : Int) : Int) : ℝ))
        ≤ Real.logb 2 ((2 : ℝ) * ((max 1 (b : Int) : Int) : ℝ)) :=
      hplace_mono _ _ (by exact_mod_cast hab)
    have hD : (0 : ℝ) ≤ (((s : Int).toNat + (n : Int).toNat : ℕ) : ℝ) := by positivity
    exact add_le_add (add_le_add (add_le_add
      (mul_le_mul_of_nonneg_right hc hword) (le_refl _)) (le_refl _))
      (mul_le_mul_of_nonneg_left h4 hD)
  · unfold estimateEntropy
    have hD : (((a : Int).toNat + (n : Int).toNat : ℕ) : ℝ)
        ≤ (((b : Int).toNat + (n : Int).toNat : ℕ) : ℝ) := by
      have ht : (a : Int).toNat ≤ (b : Int).toNat := by omega
      exact_mod_cast Nat.add_le_add_right ht _
    exact add_le_add (add_le_add (add_le_add (le_refl _)
      (mul_le_mul_of_nonneg_right hc (hif _))) (le_refl _))
      (mul_le_mul_of_nonneg_right hD (hplace_nonneg _))
  · unfold estimateEntropy
    have hD : (((s : Int).toNat + (a : Int).toNat : ℕ) : ℝ)
        ≤ (((s : Int).toNat + (b : Int).toNat : ℕ) : ℝ) := by
      have ht : (a : Int).toNat ≤ (b : Int).toNat := by omega
      exact_mod_cast Nat.add_le_add_left ht _
    exact add_le_add (add_le_add (add_le_add (le_refl _)
      (le_refl _)) (mul_le_mul_of_nonneg_right hc (hif _)))
      (mul_le_mul_of_nonneg_right hD (hplace_nonneg _))

/-- Witness for C8 at concrete counts. -/
theorem c8_entropy_monotone_witness :
    estimateEntropy V1 1 1 1 ≤ estimateEntropy V1 2 1 1 ∧
    estimateEntropy V1 1 1 1 ≤ estimateEntropy V1 1 2 1 ∧
    estimateEntropy V1 1 1 1 ≤ estimateEntropy V1 1 1 2 :=
  c8_entropy_monotone V1 1 1 1 1 2 (by norm_num)

/-- C4: `pick_words_dynamic` returns the empty sequence for `n ≤ 0`; with one
word list and `n ≥ 1` it returns `n` words all from that list; with at least
two word lists and `n ≥ 2` it returns `n` words (vocabulary lists assumed
non-empty, the loader's invariant). -/
theorem c4_pick_words_lengths (V : Vocab) (n : Int) (g : Rng)
    (hV : V.wordLists ≠ []) (hl : ∀ l ∈ V.wordLists, l ≠ []) :
    (n ≤ 0 → pick_words_dynamic V n g = some ([], g)) ∧
    (1 ≤ n → V.wordLists.length = 1 →
      ∃ ws g', pick_words_dynamic V n g = some (ws, g') ∧ (ws.length : Int) = n ∧
        ∀ w ∈ ws, w ∈ V.wordLists.getD 0 []) ∧
    (2 ≤ n → 2 ≤ V.wordLists.length →
      ∃ ws g', pick_words_dynamic V n g = some (ws, g') ∧ (ws.length : Int) = n) := by
  refine ⟨?_, ?_, ?_⟩
  · intro h0
    unfold pick_words_dynamic
    rw [if_pos h0]
  · intro hn hlen
    unfold pick_words_dynamic
    rw [if_neg (by omega), if_pos (Or.inl hlen)]
    have hmem0 : V.wordLists.getD 0 [] ∈ V.wordLists :=
      getD_mem_of_lt [] (List.length_pos.mpr hV)
    obtain ⟨ws, g', heq, hwl, hmem⟩ := choiceRep_of_ne_nil (hl _ hmem0) n.toNat g
    exact ⟨ws, g', heq, by omega, hmem⟩
  · intro hn hlen
    unfold pick_words_dynamic
    rw [if_neg (by omega), if_neg (by rintro (h | h) <;> omega)]
    dsimp only
    set P := shuffle (List.range V.wordLists.length) g with hP
    have hplen : P.1.length = V.wordLists.length := by
      rw [hP, shuffle_length, List.length_range]
    have hA : P.1.getD 0 0 < V.wordLists.length := by
      have hmem : P.1.getD 0 0 ∈ P.1 := getD_mem_of_lt 0 (by omega)
      have h2 : P.1.getD 0 0 ∈ List.range V.wordLists.length := by
        rw [hP] at hmem
        exact shuffle_subset hmem
      exact List.mem_range.mp h2
    have hB : P.1.getD 1 0 < V.wordLists.length := by
      have hmem : P.1.getD 1 0 ∈ P.1 := getD_mem_of_lt 0 (by omega)
      have h2 : P.1.getD 1 0 ∈ List.range V.wordLists.length := by
        rw [hP] at hmem
        exact shuffle_subset hmem
      exact List.mem_range.mp h2
    obtain ⟨a, ga, hchA, _⟩ := choice_of_ne_nil P.2 (hl _ (getD_mem_of_lt [] hA))
    obtain ⟨bw, gb, hchB, _⟩ := choice_of_ne_nil ga (hl _ (getD_mem_of_lt [] hB))
    obtain ⟨sel, gsel, hfill, hslen⟩ := fillWords_of_wf hV hl (n.toNat - 2) [a, bw] gb
    refine ⟨(shuffle sel gsel).1, (shuffle sel gsel).2, ?_, ?_⟩
    · rw [hchA]
      simp only [Option.some_bind]
      rw [hchB]
      simp only [Option.some_bind]
      rw [hfill]
      simp only [Option.some_bind]
    · rw [shuffle_length]
      simp only [List.length_cons, List.length_nil] at hslen
      omega

/-- Witness for C4 at `V2` (two lists) and `n = 2`. -/
theorem c4_pick_words_lengths_witness :
    ((2 : Int) ≤ 0 → pick_words_dynamic V2 2 g0 = some ([], g0)) ∧
    (1 ≤ (2 : Int) → V2.wordLists.length = 1 →
      ∃ ws g', pick_words_dynamic V2 2 g0 = some (ws, g') ∧ (ws.length : Int) = 2 ∧
        ∀ w ∈ ws, w ∈ V2.wordLists.getD 0 []) ∧
    (2 ≤ (2 : Int) → 2 ≤ V2.wordLists.length →
      ∃ ws g', pick_words_dynamic V2 2 g0 = some (ws, g') ∧ (ws.length : Int) = 2) :=
  c4_pick_words_lengths V2 2 g0 (by decide) (by decide)

theorem getD_mem_of_elem {α : Type} {l : List (List α)} {i : Nat} {x : α}
    (hx : x ∈ l.getD i []) : l.getD i [] ∈ l := by
  rcases Nat.lt_or_ge i l.length with h | h
  · exact getD_mem_of_lt [] h
  · rw [List.getD_eq_default _ _ h] at hx
    cases hx

/-- C10: when at least two word lists exist and `n = 1`, every word returned
by `pick_words_dynamic` comes from the first word list (`WORD_LISTS[0]`);
and in general every returned word is a member of some word list. -/
theorem c10_first_list_and_membership (V : Vocab) (n : Int) (g : Rng)
    (ws : List String) (g' : Rng)
    (h : pick_words_dynamic V n g = some (ws, g')) :
    (2 ≤ V.wordLists.length → n = 1 → ∀ w ∈ ws, w ∈ V.wordLists.getD 0 []) ∧
    (∀ w ∈ ws, ∃ l ∈ V.wordLists, w ∈ l) := by
  by_cases h0 : n ≤ 0
  · unfold pick_words_dynamic at h
    rw [if_pos h0] at h
    cases h
    exact ⟨fun _ _ w hw => absurd hw (List.not_mem_nil w),
      fun w hw => absurd hw (List.not_mem_nil w)⟩
  · by_cases h1 : V.wordLists.length = 1 ∨ n = 1
    · unfold pick_words_dynamic at h
      rw [if_neg h0, if_pos h1] at h
      obtain ⟨hlen, hmem⟩ := choiceRep_mem h
      refine ⟨fun _ _ w hw => hmem w hw, ?_⟩
      intro w hw
      exact ⟨_, getD_mem_of_elem (hmem w hw), hmem w hw⟩
    · unfold pick_words_dynamic at h
      rw [if_neg h0, if_neg h1] at h
      dsimp only at h
      refine ⟨fun _ hn1 => absurd (Or.inr hn1) h1, ?_⟩
      simp only [Option.bind_eq_bind, Option.bind_eq_some] at h
      obtain ⟨a, hA, b, hB, s, hS, hfin⟩ := h
      injection hfin with h2
      have hws : ws = (shuffle s.1 s.2).1 := by rw [h2]
      intro w hw
      rw [hws] at hw
      have hw2 : w ∈ s.1 := shuffle_subset hw
      obtain ⟨_, hmem⟩ := fillWords_mem _ _ _ _ _ hS
      rcases hmem w hw2 with hacc | ⟨l, hlmem, hwl⟩
      · rcases List.mem_cons.mp hacc with rfl | hacc2
        · exact ⟨_, getD_mem_of_elem (choice_mem hA), choice_mem hA⟩
        · have hwb : w = b.1 := by simpa using hacc2
          subst hwb
          exact ⟨_, getD_mem_of_elem (choice_mem hB), choice_mem hB⟩
      · exact ⟨l, hlmem, hwl⟩

/-- Witness for C10: `n = 1` with two word lists draws from the first list. -/
theorem c10_first_list_and_membership_witness :
    ((2 ≤ V2.wordLists.length → (1 : Int) = 1 → ∀ w ∈ ["a"], w ∈ V2.wordLists.getD 0 []) ∧
      (∀ w ∈ ["a"], ∃ l ∈ V2.wordLists, w ∈ l)) :=
  c10_first_list_and_membership V2 1 g0 ["a"] (rtail g0) rfl
